import Mathlib

/-
Verification of the session identification and tab-summary reconstruction
logic of the zellij session manager (src/z.rs).

The Rust source is shallowly embedded below.  Machine integers (u32/u64 of
the blake3 computation) are modelled as Nat with explicit reduction modulo
2^32; byte strings are lists of Nat; Rust strings are Lean Strings, with
character-level work done on their underlying character lists.  External
effects (the zellij process, the filesystem cache, the environment
variable holding the current session name) are passed in as explicit
values, so every embedded operation is a pure function of its inputs,
exactly as the corresponding Rust code is a pure function of the data it
reads from those sources.
-/

namespace ZScript

/-! ## The blake3 hash

The Rust code calls blake3::hash on the UTF-8 bytes of the session name
(z.rs, compute_hash_prefix).  The blake3 algorithm is embedded here in
full, following the published specification of the default (unkeyed) hash
mode: 32-bit words modelled as Nat kept below 2^32.
-/

/-- Reduction modulo 2^32, the word size of blake3. -/
def w32 : Nat := 4294967296

/-- Right rotation of a 32-bit word (a Nat below 2^32). -/
def rotr32 (x n : Nat) : Nat :=
  (x >>> n) ||| ((x <<< (32 - n)) % w32)

/-- The blake3 initialisation vector (shared with SHA-256 / BLAKE2s). -/
def IV : List Nat :=
  [0x6A09E667, 0xBB67AE85, 0x3C6EF372, 0xA54FF53A,
   0x510E527F, 0x9B05688C, 0x1F83D9AB, 0x5BE0CD19]

/-- The blake3 message word permutation applied between rounds. -/
def MSG_PERMUTATION : List Nat := [2, 6, 3, 10, 7, 0, 4, 13, 1, 11, 12, 5, 9, 14, 15, 8]

/-- The blake3 quarter-round G acting on positions a b c d of the
16-word state with message words mx my. -/
def gFn (st : List Nat) (a b c d mx my : Nat) : List Nat :=
  let sa := (st.getD a 0 + st.getD b 0 + mx) % w32
  let sd := rotr32 ((st.getD d 0) ^^^ sa) 16
  let sc := (st.getD c 0 + sd) % w32
  let sb := rotr32 ((st.getD b 0) ^^^ sc) 12
  let sa' := (sa + sb + my) % w32
  let sd' := rotr32 (sd ^^^ sa') 8
  let sc' := (sc + sd') % w32
  let sb' := rotr32 (sb ^^^ sc') 7
  (((st.set a sa').set b sb').set c sc').set d sd'

/-- One full blake3 round: four column steps then four diagonal steps. -/
def roundFn (st m : List Nat) : List Nat :=
  let st := gFn st 0 4 8 12 (m.getD 0 0) (m.getD 1 0)
  let st := gFn st 1 5 9 13 (m.getD 2 0) (m.getD 3 0)
  let st := gFn st 2 6 10 14 (m.getD 4 0) (m.getD 5 0)
  let st := gFn st 3 7 11 15 (m.getD 6 0) (m.getD 7 0)
  let st := gFn st 0 5 10 15 (m.getD 8 0) (m.getD 9 0)
  let st := gFn st 1 6 11 12 (m.getD 10 0) (m.getD 11 0)
  let st := gFn st 2 7 8 13 (m.getD 12 0) (m.getD 13 0)
  let st := gFn st 3 4 9 14 (m.getD 14 0) (m.getD 15 0)
  st

/-- Permute the 16 message words by MSG_PERMUTATION. -/
def permuteMsg (m : List Nat) : List Nat :=
  MSG_PERMUTATION.map (fun i => m.getD i 0)

/-- Apply k blake3 rounds, permuting the message words between rounds. -/
def compressRounds : Nat → List Nat → List Nat → List Nat
  | 0, st, _ => st
  | k + 1, st, m => compressRounds k (roundFn st m) (permuteMsg m)

/-- The blake3 compression function: 7 rounds on the \x7bcv, IV, counter,
block length, flags\x7d state, then the feed-forward xor step.  Returns the
full 16-word state (words 0..7 form the chaining value). -/
def compress (cv m : List Nat) (counter blockLen flags : Nat) : List Nat :=
  let st0 := cv.take 8 ++ IV.take 4 ++
    [counter % w32, (counter / w32) % w32, blockLen, flags]
  let st := compressRounds 7 st0 m
  ((List.range 8).map (fun i => (st.getD i 0) ^^^ (st.getD (i + 8) 0))) ++
    ((List.range 8).map (fun i => (st.getD (i + 8) 0) ^^^ (cv.getD i 0)))

/-- Little-endian 32-bit word number i of a (zero-padded) byte block. -/
def leWord (b : List Nat) (i : Nat) : Nat :=
  b.getD (4 * i) 0 + 256 * b.getD (4 * i + 1) 0 +
    65536 * b.getD (4 * i + 2) 0 + 16777216 * b.getD (4 * i + 3) 0

/-- The 16 little-endian message words of a byte block (zero padded to 64). -/
def blockWords (b : List Nat) : List Nat :=
  (List.range 16).map (leWord b)

/-- Split a chunk into blocks of at most 64 bytes, with enough fuel to
consume the whole chunk; an empty chunk yields one empty block, as in
blake3.  Structural recursion on the fuel keeps the definition reducible. -/
def splitBlocksF : Nat → List Nat → List (List Nat)
  | 0, chunk => [chunk]
  | fuel + 1, chunk =>
    if chunk.length ≤ 64 then [chunk]
    else chunk.take 64 :: splitBlocksF fuel (chunk.drop 64)

/-- Split a chunk (at most 1024 bytes) into blocks of at most 64 bytes. -/
def splitBlocks (chunk : List Nat) : List (List Nat) :=
  splitBlocksF chunk.length chunk

/-- A pending blake3 compression: all inputs of the final compression of a
node are kept so that the ROOT flag can be added at finalisation time. -/
structure B3Output where
  inputCV : List Nat
  blockW : List Nat
  counter : Nat
  blockLen : Nat
  flags : Nat

/-- Chaining value of a node: first 8 words of its compression. -/
def chainCV (o : B3Output) : List Nat :=
  (compress o.inputCV o.blockW o.counter o.blockLen o.flags).take 8

/-- Root words of a node: first 8 words of its compression with the ROOT
flag (8) added. -/
def rootWords (o : B3Output) : List Nat :=
  (compress o.inputCV o.blockW o.counter o.blockLen (o.flags ||| 8)).take 8

/-- Fold the blocks of one chunk: every block but the last is compressed
into the chaining value (flag CHUNK_START = 1 on the first block), and the
last block is returned as a pending compression with CHUNK_END = 2. -/
def chunkFold (cv : List Nat) (counter : Nat) (first : Bool) : List (List Nat) → B3Output
  | [] => ⟨cv, blockWords [], counter, 0, 3⟩
  | [b] => ⟨cv, blockWords b, counter, b.length, (if first then 1 else 0) ||| 2⟩
  | b :: b2 :: rest =>
    chunkFold ((compress cv (blockWords b) counter 64 (if first then 1 else 0)).take 8)
      counter false (b2 :: rest)

/-- The pending compression of one chunk of input. -/
def chunkOut (key : List Nat) (counter : Nat) (chunk : List Nat) : B3Output :=
  chunkFold key counter true (splitBlocks chunk)

/-- Split the input into chunks of at most 1024 bytes, with enough fuel to
consume the whole input. -/
def splitChunksF : Nat → List Nat → List (List Nat)
  | 0, input => [input]
  | fuel + 1, input =>
    if input.length ≤ 1024 then [input]
    else input.take 1024 :: splitChunksF fuel (input.drop 1024)

/-- Split the input into chunks of at most 1024 bytes; empty input yields
one empty chunk, as in blake3. -/
def splitChunks (input : List Nat) : List (List Nat) :=
  splitChunksF input.length input

/-- The chaining values of the chunks, with the chunk index as counter. -/
def chunkCVs (key : List Nat) (i : Nat) : List (List Nat) → List (List Nat)
  | [] => []
  | c :: rest => chainCV (chunkOut key i c) :: chunkCVs key (i + 1) rest

/-- The largest power of two strictly less than n (meaningful for n ≥ 2):
the left subtree of a blake3 tree node gets this many chunks. -/
def largestPow2Lt (n : Nat) : Nat := 2 ^ Nat.log2 (n - 1)

/-- Condense a nonempty list of chunk chaining values into the chaining
value of the subtree above them, combining with PARENT (= 4) compressions;
the left child always takes the largest power of two of chunks strictly
below the total.  Each level of the tree strictly shrinks the list, so a
fuel equal to the list length suffices. -/
def condenseF (key : List Nat) : Nat → List (List Nat) → List Nat
  | 0, cvs => cvs.getD 0 []
  | fuel + 1, cvs =>
    if cvs.length ≤ 1 then cvs.getD 0 []
    else
      let k := largestPow2Lt cvs.length
      chainCV ⟨key, condenseF key fuel (cvs.take k) ++ condenseF key fuel (cvs.drop k), 0, 64, 4⟩

/-- Condense the chunk chaining values of a subtree into its chaining value. -/
def condense (key : List Nat) (cvs : List (List Nat)) : List Nat :=
  condenseF key cvs.length cvs

/-- The pending root compression of the whole input. -/
def blake3Root (key : List Nat) (input : List Nat) : B3Output :=
  let cs := splitChunks input
  if cs.length ≤ 1 then chunkOut key 0 (cs.getD 0 [])
  else
    let cvs := chunkCVs key 0 cs
    let k := largestPow2Lt cvs.length
    ⟨key, condense key (cvs.take k) ++ condense key (cvs.drop k), 0, 64, 4⟩

/-- The four little-endian bytes of a 32-bit word. -/
def wordLEBytes (wd : Nat) : List Nat :=
  [wd % 256, (wd / 256) % 256, (wd / 65536) % 256, (wd / 16777216) % 256]

/-- Concatenated images of f, in order (the flat_map of the sources). -/
def concatMap (f : α → List β) : List α → List β
  | [] => []
  | a :: l => f a ++ concatMap f l

/-- The 32-byte blake3 hash of a byte string (default unkeyed mode). -/
def blake3Hash (input : List Nat) : List Nat :=
  concatMap wordLEBytes (rootWords (blake3Root IV input))

/-- UTF-8 encoding of one Unicode code point (what Rust as_bytes exposes
per character of the name). -/
def utf8EncodeCharNat (c : Nat) : List Nat :=
  if c < 0x80 then [c]
  else if c < 0x800 then
    [0xC0 ||| (c >>> 6), 0x80 ||| (c &&& 0x3F)]
  else if c < 0x10000 then
    [0xE0 ||| (c >>> 12), 0x80 ||| ((c >>> 6) &&& 0x3F), 0x80 ||| (c &&& 0x3F)]
  else
    [0xF0 ||| (c >>> 18), 0x80 ||| ((c >>> 12) &&& 0x3F),
     0x80 ||| ((c >>> 6) &&& 0x3F), 0x80 ||| (c &&& 0x3F)]

/-- The UTF-8 bytes of a string (Rust str::as_bytes). -/
def utf8Bytes (s : String) : List Nat :=
  concatMap (fun ch => utf8EncodeCharNat ch.toNat) s.data

/-- The sixteen lowercase hex digits. -/
def hexTable : List Char := "0123456789abcdef".data

/-- The hex digit of a value below 16. -/
def hexChar (n : Nat) : Char := hexTable.getD n '0'

/-- The two lowercase hex characters of one byte (blake3 Hash::to_hex). -/
def hexByte (b : Nat) : List Char := [hexChar (b / 16), hexChar (b % 16)]

/-- Embeds compute_hash_prefix (z.rs lines 136-139): the blake3 hash of
the UTF-8 bytes of the name, rendered as lowercase hex, truncated to its
first 8 characters. -/
def compute_hash_hex (name : String) : String :=
  String.mk ((concatMap hexByte (blake3Hash (utf8Bytes name))).take 8)

/-! ## Session records and the shortest-unique-prefix search -/

/-- Embeds SessionInfo (z.rs lines 58-64).  The digest field models the
hash_prefix field of the Rust struct: the full fixed-length (8 hex
character) digest of the name, as produced by compute_hash_prefix. -/
structure SessionInfo where
  name : String
  is_current : Bool
  is_exited : Bool
  digest : String
deriving DecidableEq, Repr

/-- The length-len character truncation of a session's digest, as built by
session.hash_prefix.chars().take(len).collect() in find_shortest_prefixes. -/
def prefixAt (s : SessionInfo) (len : Nat) : String :=
  String.mk (s.digest.data.take len)

/-- The uniqueness test of the inner loop of find_shortest_prefixes
(z.rs lines 149-152): no session with a different name has a digest that
starts with the length-len truncation of s's digest. -/
def isUniqueAt (sessions : List SessionInfo) (s : SessionInfo) (len : Nat) : Bool :=
  (sessions.filter (fun t => t.name != s.name)).all
    (fun t => !(List.isPrefixOf (s.digest.data.take len) t.digest.data))

/-- The per-session search of find_shortest_prefixes: the first length in
1..=8 whose truncation is unique, if any; the Rust loop inserts nothing
when no length qualifies. -/
def sessionShortest (sessions : List SessionInfo) (s : SessionInfo) : Option String :=
  (List.range' 1 8).findSome?
    (fun len => if isUniqueAt sessions s len then some (prefixAt s len) else none)

/-- One iteration of the outer loop of find_shortest_prefixes: insert the
found truncation under the session's name (overwriting, as
HashMap::insert does), or leave the map unchanged when the inner loop
found no unique length. -/
def insertShortest (sessions : List SessionInfo) (m : String → Option String)
    (s : SessionInfo) : String → Option String :=
  match sessionShortest sessions s with
  | some p => fun k => if k = s.name then some p else m k
  | none => m

/-- Embeds find_shortest_prefixes (z.rs lines 141-162).  The returned
HashMap from session name to chosen truncation is modelled as a function
from keys to optional values. -/
def find_shortest_prefixes (sessions : List SessionInfo) : String → Option String :=
  sessions.foldl (insertShortest sessions) (fun _ => none)

/-! ## The session directory reader (list_sessions)

The raw output of the external listing command and the environment's
current session name are passed in as values; list_sessions is the pure
text processing the Rust function performs on them (z.rs lines 164-201).
Lines are handled at the character-list level; character positions
correspond to the byte positions the Rust code computes, because all the
delimiter characters involved are ASCII.
-/

/-- Split a character list at newline characters (the pieces that Rust
str::lines starts from). -/
def splitOnNL : List Char → List (List Char)
  | [] => [[]]
  | c :: t =>
    let r := splitOnNL t
    if c = '\n' then [] :: r
    else
      match r with
      | [] => [[c]]
      | h :: t2 => (c :: h) :: t2

/-- Remove one trailing carriage return (for pieces that were followed by
a newline, matching Rust str::lines on \r\n endings). -/
def stripCR (l : List Char) : List Char :=
  if l.getLast? = some '\r' then l.dropLast else l

/-- Embeds Rust str::lines: split at newlines, drop a final empty piece
produced by a trailing newline, and strip a carriage return from every
piece that was followed by a newline. -/
def rustLines (s : String) : List (List Char) :=
  match (splitOnNL s.data).reverse with
  | [] => []
  | last :: revInit =>
    let init := (revInit.map stripCR).reverse
    if last.isEmpty then init else init ++ [last]

/-- Whitespace trim of both ends of a character list (Rust str::trim). -/
def trimChars (l : List Char) : List Char :=
  ((l.dropWhile Char.isWhitespace).reverse.dropWhile Char.isWhitespace).reverse

/-- First whitespace-delimited token of a line, or the empty list
(line.split_whitespace().next().unwrap_or("")). -/
def firstTok (l : List Char) : List Char :=
  (l.dropWhile Char.isWhitespace).takeWhile (fun c => !c.isWhitespace)

/-- Substring containment test (Rust str::contains with a literal). -/
def containsStr : List Char → List Char → Bool
  | [], pat => pat.isEmpty
  | c :: t, pat => pat.isPrefixOf (c :: t) || containsStr t pat

/-- The marker the listing uses for exited sessions. -/
def exitedPat : List Char := "EXITED".data

/-- Name extraction from one listing line (z.rs lines 178-191): find the
first escape character, then the first m after it; the name runs from
there to the next escape character, trimmed; on any failure fall back to
the first whitespace-delimited token of the line. -/
def extractName (line : List Char) : List Char :=
  match line.findIdx? (fun c => c = '\x1b') with
  | some start =>
    match (line.drop start).findIdx? (fun c => c = 'm') with
    | some endStart =>
      let nameStart := start + endStart + 1
      let tail := line.drop nameStart
      match tail.findIdx? (fun c => c = '\x1b') with
      | some nameEnd => trimChars (tail.take nameEnd)
      | none => firstTok line
    | none => firstTok line
  | none => firstTok line

/-- The SessionInfo record built from one listing line (the closure of the
map in list_sessions, z.rs lines 174-196). -/
def lineRecord (current_session : Option String) (line : List Char) : SessionInfo :=
  let name := String.mk (extractName line)
  { name := name
    is_current := current_session == some name
    is_exited := containsStr line exitedPat
    digest := compute_hash_hex name }

/-- The line-list to record-list processing of list_sessions: keep lines
that are not blank and, unless include_exited is set, do not contain the
EXITED marker; build a record per line; drop records with empty names. -/
def sessionsOfLines (include_exited : Bool) (current_session : Option String)
    (lines : List (List Char)) : List SessionInfo :=
  ((lines.filter
      (fun line => !(trimChars line).isEmpty &&
        (include_exited || !containsStr line exitedPat))).map
    (lineRecord current_session)).filter
    (fun s => !(s.name == ""))

/-- Embeds list_sessions (z.rs lines 164-201), with the raw output of the
external listing command and the current session name as inputs. -/
def list_sessions (include_exited : Bool) (raw : String)
    (current_session : Option String) : List SessionInfo :=
  sessionsOfLines include_exited current_session (rustLines raw)

/-! ## The layout parser

The kdl crate's parsed document tree is embedded directly: a node has a
name, entries (each an optional property key with a value that may or may
not be a string), and an optional list of children.  parse_kdl_layout is
the traversal the Rust function performs on a successfully parsed
document; the fallible text-to-document step of the external kdl crate is
modelled by taking the parse result (document or error) as the input.
-/

/-- A KDL value; only string values matter to the parser (as_string
returns None on every other kind). -/
inductive KdlValue where
  | str : String → KdlValue
  | nonstr : KdlValue
deriving DecidableEq, Repr

/-- Rust KdlValue::as_string. -/
def KdlValue.asString : KdlValue → Option String
  | .str s => some s
  | .nonstr => none

/-- A KDL entry: an optional property key and a value. -/
structure KdlEntry where
  key : Option String
  value : KdlValue
deriving DecidableEq, Repr

/-- A KDL node: name, entries, optional children block. -/
inductive KdlNode where
  | mk : String → List KdlEntry → Option (List KdlNode) → KdlNode

def KdlNode.name : KdlNode → String
  | .mk n _ _ => n

def KdlNode.entries : KdlNode → List KdlEntry
  | .mk _ e _ => e

def KdlNode.children : KdlNode → Option (List KdlNode)
  | .mk _ _ c => c

/-- A KDL document: a list of top-level nodes. -/
structure KdlDocument where
  nodes : List KdlNode

/-- Embeds TabInfo (z.rs lines 72-77). -/
structure TabInfo where
  name : String
  command : Option String
  cwd : Option String
deriving DecidableEq, Repr

/-- The find-entry-by-property-key-then-as_string pattern used for the
name, command and cwd attributes: the first entry whose key matches, if
its value is a string. -/
def findStrEntry (entries : List KdlEntry) (k : String) : Option String :=
  match entries.find? (fun e => e.key == some k) with
  | some e => e.value.asString
  | none => none

/-- The (command, cwd) pair of a child node if it is an informative pane:
named pane and declaring at least one of the two string attributes
(z.rs lines 229-251). -/
def paneInfo (child : KdlNode) : Option (Option String × Option String) :=
  if child.name == "pane" then
    let command := findStrEntry child.entries "command"
    let cwd := findStrEntry child.entries "cwd"
    if command.isSome || cwd.isSome then some (command, cwd) else none
  else none

/-- The informative pane pairs of a tab node, in document order. -/
def tabPanes (node : KdlNode) : List (Option String × Option String) :=
  match node.children with
  | none => []
  | some cs => cs.filterMap paneInfo

/-- The tab's display name: its name string attribute, defaulting to Tab
(z.rs lines 216-224). -/
def tabNameOf (node : KdlNode) : String :=
  match findStrEntry node.entries "name" with
  | some n => n
  | none => "Tab"

/-- The deduplicating emission loop over a tab's pane pairs (z.rs lines
258-268): pairs already seen are skipped, new pairs are recorded and emit
one TabInfo carrying the tab's name. -/
def dedupEmit (tname : String) (seen : List (Option String × Option String)) :
    List (Option String × Option String) → List TabInfo
  | [] => []
  | (c, w) :: rest =>
    if (c, w) ∈ seen then dedupEmit tname seen rest
    else ⟨tname, c, w⟩ :: dedupEmit tname ((c, w) :: seen) rest

/-- The TabInfo rows emitted for one tab node (z.rs lines 255-275): one
row per first occurrence of a pane pair, or a single empty row when the
tab has no informative panes. -/
def tabSummaries (node : KdlNode) : List TabInfo :=
  let tname := tabNameOf node
  let panes := tabPanes node
  if panes.isEmpty then [⟨tname, none, none⟩]
  else dedupEmit tname [] panes

/-- Embeds parse_kdl_layout (z.rs lines 203-282) applied to an already
parsed document: find the first top-level layout node; walk its children
in order; every tab child contributes its rows in order.  After a
successful text parse the function can only return Ok. -/
def parse_kdl_layout (doc : KdlDocument) : Except String (List TabInfo) :=
  match doc.nodes.find? (fun n => n.name == "layout") with
  | some layoutNode =>
    match layoutNode.children with
    | some cs => .ok (concatMap tabSummaries (cs.filter (fun n => n.name == "tab")))
    | none => .ok []
  | none => .ok []

/-- parse_kdl_layout on raw layout text, with the external kdl crate's
text parse modelled by its result: a parse error propagates, a parsed
document is traversed. -/
def parseKdlText (t : Except String KdlDocument) : Except String (List TabInfo) :=
  match t with
  | .error e => .error e
  | .ok doc => parse_kdl_layout doc

/-! ## The tab-fetch orchestration

parse_session_tabs (z.rs lines 284-303) reads either the cached layout of
an exited session or the dump-layout output of a live one; both external
sources are passed in as functions of the session name.  A cached or
dumped layout text is represented by the result of parsing it.  The main
function's parallel fan-out (z.rs lines 634-643) uses rayon's indexed
parallel map followed by collect, whose documented semantics produce the
results in the input order; it is therefore embedded as List.map.
-/

/-- Embeds parse_session_tabs.  cache models load_cached_session_layout
(none covers both a missing cache entry and an unreadable one, the Err(_)
arm); dump models the dump-layout process call for live sessions (error =
the call failed). -/
def parse_session_tabs (cache : String → Option (Except String KdlDocument))
    (dump : String → Except String (Except String KdlDocument))
    (s : SessionInfo) : Except String (List TabInfo) :=
  if s.is_exited then
    match cache s.name with
    | some t => parseKdlText t
    | none => .ok []
  else
    match dump s.name with
    | .ok t => parseKdlText t
    | .error e => .error e

/-- Embeds the tab-fetch fan-out of main (z.rs lines 634-643): one
(session, result) pair per session, in input order. -/
def fetch_all (cache : String → Option (Except String KdlDocument))
    (dump : String → Except String (Except String KdlDocument))
    (sessions : List SessionInfo) : List (SessionInfo × Except String (List TabInfo)) :=
  sessions.map (fun s => (s, parse_session_tabs cache dump s))

/-! ## Spec-side definitions

These follow the specification's words, to be compared with the embedded
code; they are deliberately written independently of the loop shapes
above.
-/

/-- Deduplication keeping the first occurrence of each element, stated the
way the spec words it: keep the head, then deduplicate what follows with
every later copy of the head removed. -/
def dedupFirst : List (Option String × Option String) →
    List (Option String × Option String)
  | [] => []
  | p :: rest => p :: dedupFirst (rest.filter (fun q => q != p))
termination_by l => l.length
decreasing_by
  have := List.length_filter_le (fun q => q != p) rest
  simp only [List.length_cons]
  omega

/-! ## Concrete test fixtures -/

/-- A document whose root has no layout node. -/
def noLayoutDoc : KdlDocument := ⟨[.mk "session_list" [] none]⟩

/-- A tab named editor with two identical vim panes. -/
def tabEditor : KdlNode :=
  .mk "tab" [⟨some "name", .str "editor"⟩]
    (some
      [.mk "pane" [⟨some "command", .str "vim"⟩, ⟨some "cwd", .str "/src"⟩] none,
       .mk "pane" [⟨some "command", .str "vim"⟩, ⟨some "cwd", .str "/src"⟩] none])

/-- A layout document holding only the editor tab. -/
def editorDoc : KdlDocument := ⟨[.mk "layout" [] (some [tabEditor])]⟩

/-- A tab node with no name attribute and no panes. -/
def emptyTab : KdlNode := .mk "tab" [] none

/-- A layout document holding only the bare tab. -/
def emptyTabDoc : KdlDocument := ⟨[.mk "layout" [] (some [emptyTab])]⟩

/-- An exited session record (the digest field plays no role here). -/
def sDead : SessionInfo := ⟨"dead", false, true, ""⟩

/-- Three live sessions for the fan-out example. -/
def sOne : SessionInfo := ⟨"one", false, false, ""⟩

def sTwo : SessionInfo := ⟨"two", false, false, ""⟩

def sThree : SessionInfo := ⟨"three", false, false, ""⟩

/-- A cache with no entries. -/
def cacheNone : String → Option (Except String KdlDocument) := fun _ => none

/-- A dump that fails for session two and yields an empty document
otherwise. -/
def dumpBoom : String → Except String (Except String KdlDocument) :=
  fun n => if n = "two" then .error "boom" else .ok (.ok ⟨[]⟩)

/-- Two sessions whose digests collide at every length up to the full 8
characters. -/
def collA : SessionInfo := ⟨"alpha", false, false, "00000000"⟩

def collB : SessionInfo := ⟨"beta", false, false, "00000000"⟩

/-- Two sessions with distinct 8-character digests. -/
def w2a : SessionInfo := ⟨"alpha", false, false, "0a1b2c3d"⟩

def w2b : SessionInfo := ⟨"beta", false, false, "ff00ff00"⟩

/-! ## Claims about the layout parser -/

/-- C7: a syntactically well-formed layout document with no node named
layout at the root parses to a successful empty sequence of tab rows, not
an error. -/
theorem c7_no_layout_root (doc : KdlDocument)
    (h : ∀ n ∈ doc.nodes, n.name ≠ "layout") :
    parse_kdl_layout doc = .ok [] := by
  unfold parse_kdl_layout
  have hfind : doc.nodes.find? (fun n => n.name == "layout") = none := by
    rw [List.find?_eq_none]
    intro n hn
    simpa using h n hn
  rw [hfind]

/-- Witness for C7 at a concrete document. -/
theorem c7_witness :
    (∀ n ∈ noLayoutDoc.nodes, n.name ≠ "layout") ∧
      parse_kdl_layout noLayoutDoc = .ok [] :=
  ⟨by decide, c7_no_layout_root noLayoutDoc (by decide)⟩

/-- C8: fetching the tabs of an exited session whose cached layout is
absent succeeds with an empty tab list rather than returning an error. -/
theorem c8_exited_cache_miss (cache : String → Option (Except String KdlDocument))
    (dump : String → Except String (Except String KdlDocument)) (s : SessionInfo)
    (hexit : s.is_exited = true) (hmiss : cache s.name = none) :
    parse_session_tabs cache dump s = .ok [] := by
  unfold parse_session_tabs
  rw [hexit]
  simp [hmiss]

/-- Witness for C8 at a concrete session and empty cache. -/
theorem c8_witness :
    sDead.is_exited = true ∧ cacheNone sDead.name = none ∧
      parse_session_tabs cacheNone dumpBoom sDead = .ok [] :=
  ⟨rfl, rfl, c8_exited_cache_miss cacheNone dumpBoom sDead rfl rfl⟩

/-- C4: the tab-fetch orchestration yields exactly one (session, result)
pair per input session, in the input order; a per-session failure is that
item's error and neither removes nor reorders the others.  The third
conjunct is the three-session example with the middle fetch failing. -/
theorem c4_fetch_order :
    (∀ cache dump (sessions : List SessionInfo),
        (fetch_all cache dump sessions).map Prod.fst = sessions)
    ∧ (∀ cache dump (sessions : List SessionInfo) (i : Nat),
        (fetch_all cache dump sessions)[i]? =
          (sessions[i]?).map (fun s => (s, parse_session_tabs cache dump s)))
    ∧ fetch_all cacheNone dumpBoom [sOne, sTwo, sThree] =
        [(sOne, .ok []), (sTwo, .error "boom"), (sThree, .ok [])] := by
  refine ⟨?_, ?_, ?_⟩
  · intro cache dump sessions
    induction sessions with
    | nil => rfl
    | cons a t ih => simpa [fetch_all] using ih
  · intro cache dump sessions i
    simp [fetch_all]
  · rfl

/-- C10: a listing line is classified exited exactly when the EXITED
marker occurs anywhere in it, including inside the session name itself; a
live session whose name contains the marker is recorded with is_exited
true and is dropped entirely when exited sessions are excluded. -/
theorem c10_exited_substring :
    (∀ cur line, (lineRecord cur line).is_exited = containsStr line exitedPat)
    ∧ (list_sessions true "liveEXITEDname\nalpha" none).map
        (fun s => (s.name, s.is_exited)) = [("liveEXITEDname", true), ("alpha", false)]
    ∧ (list_sessions false "liveEXITEDname\nalpha" none).map (fun s => s.name) =
        ["alpha"] :=
  ⟨fun _ _ => rfl, by decide, by decide⟩

/-- C6: a tab under the layout root with zero informative panes yields
exactly one row with command and cwd absent; the name defaults to Tab when
the tab declares no name attribute; every declared tab is represented by
at least one row; and the whole-document instance with a bare tab. -/
theorem c6_empty_tab :
    (∀ node : KdlNode,
        (∀ cs, node.children = some cs → ∀ c ∈ cs, c.name = "pane" →
          findStrEntry c.entries "command" = none ∧
            findStrEntry c.entries "cwd" = none) →
        tabSummaries node = [⟨tabNameOf node, none, none⟩])
    ∧ (∀ node : KdlNode, (∀ e ∈ node.entries, e.key ≠ some "name") →
        tabNameOf node = "Tab")
    ∧ (∀ node : KdlNode, tabSummaries node ≠ [])
    ∧ parse_kdl_layout emptyTabDoc = .ok [⟨"Tab", none, none⟩] := by
  refine ⟨?_, ?_, ?_, rfl⟩
  · intro node h
    have hpanes : tabPanes node = [] := by
      unfold tabPanes
      cases hc : node.children with
      | none => rfl
      | some cs =>
        rw [List.filterMap_eq_nil]
        intro c hcmem
        unfold paneInfo
        cases hname : c.name == "pane" with
        | false => simp
        | true =>
          obtain ⟨h1, h2⟩ := h cs hc c hcmem (by simpa using hname)
          simp [h1, h2]
    unfold tabSummaries
    rw [hpanes]
    rfl
  · intro node h
    unfold tabNameOf
    have hfind : node.entries.find? (fun e => e.key == some "name") = none := by
      rw [List.find?_eq_none]
      intro e he
      simpa using h e he
    unfold findStrEntry
    rw [hfind]
  · intro node
    unfold tabSummaries
    cases hp : tabPanes node with
    | nil => simp
    | cons p rest =>
      obtain ⟨c, w⟩ := p
      by_cases hmem : ((c, w) : Option String × Option String) ∈ ([] : List (Option String × Option String))
      · cases hmem
      · simp [dedupEmit]

/-- Witness for C6 at the bare tab node. -/
theorem c6_witness :
    (∀ cs, emptyTab.children = some cs → ∀ c ∈ cs, c.name = "pane" →
      findStrEntry c.entries "command" = none ∧ findStrEntry c.entries "cwd" = none) ∧
      tabSummaries emptyTab = [⟨tabNameOf emptyTab, none, none⟩] :=
  ⟨fun cs h => by simp [emptyTab, KdlNode.children] at h,
   c6_empty_tab.1 emptyTab (fun cs h => by simp [emptyTab, KdlNode.children] at h)⟩

/-- The emission loop of one tab refines spec-side first-occurrence
deduplication: pairs already in the seen set are exactly the ones removed
up front, and the surviving pairs appear in first-occurrence order. -/
theorem dedupEmit_eq_dedupFirst (tname : String) :
    ∀ (l : List (Option String × Option String))
      (seen : List (Option String × Option String)),
      dedupEmit tname seen l =
        (dedupFirst (l.filter (fun q => decide (q ∉ seen)))).map
          (fun p => ⟨tname, p.1, p.2⟩) := by
  intro l
  induction l with
  | nil => intro seen; simp [dedupEmit, dedupFirst]
  | cons p rest ih =>
    intro seen
    obtain ⟨c, w⟩ := p
    by_cases hmem : ((c, w) : Option String × Option String) ∈ seen
    · rw [List.filter_cons_of_neg (by simpa using hmem)]
      simp only [dedupEmit, if_pos hmem]
      exact ih seen
    · rw [List.filter_cons_of_pos (by simpa using hmem)]
      simp only [dedupEmit, if_neg hmem]
      rw [dedupFirst]
      rw [List.map_cons]
      congr 1
      rw [ih ((c, w) :: seen)]
      congr 1
      rw [List.filter_filter]
      congr 1
      apply List.filter_congr
      intro q _
      by_cases h1 : q ∈ seen <;> by_cases h2 : q = (c, w) <;>
        simp [h1, h2, List.mem_cons]

/-- C3: per tab, one row per distinct (command, cwd) pair of informative
panes in first-occurrence document order, all carrying the tab's name;
rows follow the declared tab order across tabs (the parse result is the
in-order concatenation of the per-tab rows); and the editor tab with two
identical vim panes yields exactly one row. -/
theorem c3_dedup_order :
    (∀ (doc : KdlDocument) (layoutNode : KdlNode) (cs : List KdlNode),
        doc.nodes.find? (fun n => n.name == "layout") = some layoutNode →
        layoutNode.children = some cs →
        parse_kdl_layout doc =
          .ok (concatMap tabSummaries (cs.filter (fun n => n.name == "tab"))))
    ∧ (∀ node : KdlNode, tabPanes node ≠ [] →
        tabSummaries node =
          (dedupFirst (tabPanes node)).map
            (fun p => ⟨tabNameOf node, p.1, p.2⟩))
    ∧ parse_kdl_layout editorDoc = .ok [⟨"editor", some "vim", some "/src"⟩] := by
  refine ⟨?_, ?_, rfl⟩
  · intro doc layoutNode cs hfind hchild
    unfold parse_kdl_layout
    rw [hfind]
    dsimp only
    rw [hchild]
  · intro node hne
    unfold tabSummaries
    rw [if_neg (by simpa [List.isEmpty_iff] using hne)]
    rw [dedupEmit_eq_dedupFirst (tabNameOf node) (tabPanes node) []]
    congr 2
    apply List.filter_eq_self.mpr
    intro q _
    simp

/-- Witness for C3 at the editor tab. -/
theorem c3_witness :
    tabPanes tabEditor ≠ [] ∧
      tabSummaries tabEditor =
        (dedupFirst (tabPanes tabEditor)).map
          (fun p => ⟨tabNameOf tabEditor, p.1, p.2⟩) :=
  ⟨by decide, c3_dedup_order.2.1 tabEditor (by decide)⟩

/-! ## Claims about the session directory reader -/

@[simp] theorem lineRecord_is_exited (cur : Option String) (line : List Char) :
    (lineRecord cur line).is_exited = containsStr line exitedPat := rfl

/-- Excluding exited sessions is exactly a filter on the exited flag: the
records produced without them are the records produced with them, minus
every record whose line carried the marker. -/
theorem sessionsOfLines_false (cur : Option String) (lines : List (List Char)) :
    sessionsOfLines false cur lines =
      (sessionsOfLines true cur lines).filter (fun s => !s.is_exited) := by
  unfold sessionsOfLines
  rw [List.filter_filter]
  rw [List.filter_map, List.filter_map]
  rw [List.filter_filter, List.filter_filter]
  congr 1
  apply List.filter_congr
  intro line _
  simp only [Function.comp, lineRecord_is_exited, Bool.false_or, Bool.true_or,
    Bool.and_true]
  cases hA : (trimChars line).isEmpty <;> cases hB : containsStr line exitedPat <;>
    cases hC : ((lineRecord cur line).name == "") <;> simp [hA, hB, hC]

/-- C9: with include_exited false, every line flagged exited is dropped
before name extraction, so the result is the include_exited listing with
the exited records removed; in particular one EXITED line next to one
normal line yields only the normal line's session. -/
theorem c9_drop_exited :
    (∀ raw cur, list_sessions false raw cur =
        (list_sessions true raw cur).filter (fun s => !s.is_exited))
    ∧ (list_sessions false "alpha\nbeta (EXITED - attach to resurrect)" none).map
        (fun s => s.name) = ["alpha"] :=
  ⟨fun raw cur => sessionsOfLines_false cur (rustLines raw), by decide⟩

/-! ## The digest collision claim -/

/-- C1 evaluated at a full digest collision: the Rust loop inserts a
session's truncation only when some length in 1..=8 is unique, so two
sessions with identical digests both end with NO entry in the returned
mapping.  This refutes the claimed fallback to the full fixed-length
digest; display_sessions_with_tabs then panics on its unwrap of the
missing entry (z.rs line 373). -/
theorem c1_collision_drops_sessions :
    find_shortest_prefixes [collA, collB] collA.name = none ∧
      find_shortest_prefixes [collA, collB] collB.name = none := by decide

/-! ## The digest function claim -/

theorem compress_length (cv m : List Nat) (c bl fl : Nat) :
    (compress cv m c bl fl).length = 16 := by
  simp [compress]

theorem rootWords_length (o : B3Output) : (rootWords o).length = 8 := by
  simp [rootWords, List.length_take, compress_length]

theorem concatMap_length_const {α β : Type} (f : α → List β) (k : Nat)
    (hf : ∀ a, (f a).length = k) : ∀ l, (concatMap f l).length = k * l.length := by
  intro l
  induction l with
  | nil => simp [concatMap]
  | cons a t ih => simp [concatMap, hf, ih]; ring

theorem blake3Hash_length (input : List Nat) : (blake3Hash input).length = 32 := by
  unfold blake3Hash
  rw [concatMap_length_const wordLEBytes 4 (fun wd => rfl)]
  rw [rootWords_length]

theorem compute_hash_hex_length (s : String) :
    (compute_hash_hex s).data.length = 8 := by
  show (List.take 8 (concatMap hexByte (blake3Hash (utf8Bytes s)))).length = 8
  rw [List.length_take]
  rw [concatMap_length_const hexByte 2 (fun b => rfl)]
  rw [blake3Hash_length]
  decide

theorem hexChar_mem (n : Nat) : hexChar n ∈ hexTable := by
  unfold hexChar
  rcases Nat.lt_or_ge n hexTable.length with h | h
  · rw [List.getD_eq_getElem hexTable '0' h]
    exact List.getElem_mem h
  · rw [List.getD_eq_default hexTable '0' h]
    decide

theorem mem_concatMap {α β : Type} (f : α → List β) (b : β) :
    ∀ l : List α, b ∈ concatMap f l ↔ ∃ a ∈ l, b ∈ f a := by
  intro l
  induction l with
  | nil => simp [concatMap]
  | cons a t ih => simp [concatMap, ih]

theorem compute_hash_hex_chars (s : String) :
    ∀ c ∈ (compute_hash_hex s).data, c ∈ hexTable := by
  intro c hc
  have hc2 : c ∈ concatMap hexByte (blake3Hash (utf8Bytes s)) :=
    List.mem_of_mem_take hc
  obtain ⟨b, _, hb⟩ := (mem_concatMap hexByte c _).mp hc2
  have hb2 : c = hexChar (b / 16) ∨ c = hexChar (b % 16) := by
    simpa [hexByte] using hb
  rcases hb2 with h | h <;> exact h ▸ hexChar_mem _

set_option maxRecDepth 100000 in
/-- C5: the digest is a pure function of the UTF-8 bytes of the name
alone (so identical names give identical digests, in the same or a
different run: there is no randomness and no per-run salt); it is the
lowercase hex of the blake3 hash of those bytes truncated to exactly 8
hex characters; and the embedded blake3 reproduces the published test
vector for empty input. -/
theorem c5_digest_pure :
    (∀ s t : String, utf8Bytes s = utf8Bytes t →
        compute_hash_hex s = compute_hash_hex t)
    ∧ (∀ s, compute_hash_hex s =
        String.mk ((concatMap hexByte (blake3Hash (utf8Bytes s))).take 8))
    ∧ (∀ s, (compute_hash_hex s).data.length = 8)
    ∧ (∀ s, ∀ c ∈ (compute_hash_hex s).data, c ∈ hexTable)
    ∧ String.mk (concatMap hexByte (blake3Hash [])) =
        "af1349b9f5f9a1a6a0404dea36dcc9499bcb25c9adc112b7cc9a93cae41f3262" :=
  ⟨fun s t h => by unfold compute_hash_hex; rw [h],
   fun s => rfl, compute_hash_hex_length, compute_hash_hex_chars, by decide⟩

/-- Witness for C5: the purity conjunct applied at a concrete name. -/
theorem c5_witness :
    utf8Bytes "main" = utf8Bytes "main" ∧
      compute_hash_hex "main" = compute_hash_hex "main" :=
  ⟨rfl, c5_digest_pure.1 "main" "main" rfl⟩

/-! ## The shortest-unique-prefix claim -/

/-- findSome? over a contiguous range returns the image of the FIRST
position satisfying the test, provided some position satisfies it. -/
theorem findSome?_range'_first {β : Type} (P : Nat → Bool) (f : Nat → β) :
    ∀ (n a : Nat), (∃ i, a ≤ i ∧ i < a + n ∧ P i = true) →
      ∃ L, a ≤ L ∧ L < a + n ∧ P L = true ∧
        (∀ y, a ≤ y → y < L → P y = false) ∧
        (List.range' a n).findSome?
          (fun len => if P len then some (f len) else none) = some (f L) := by
  intro n
  induction n with
  | zero =>
    intro a h
    obtain ⟨i, h1, h2, _⟩ := h
    omega
  | succ n ih =>
    intro a h
    obtain ⟨i, hi1, hi2, hiP⟩ := h
    rw [List.range'_succ]
    cases hPa : P a with
    | true =>
      refine ⟨a, Nat.le_refl a, by omega, hPa, fun y hy1 hy2 => absurd hy2 (by omega), ?_⟩
      simp [List.findSome?, hPa]
    | false =>
      have hia : i ≠ a := by
        intro hEq
        rw [hEq, hPa] at hiP
        cases hiP
      obtain ⟨L, hL1, hL2, hLP, hLmin, hLfind⟩ :=
        ih (a + 1) ⟨i, by omega, by omega, hiP⟩
      refine ⟨L, by omega, by omega, hLP, ?_, ?_⟩
      · intro y hy1 hy2
        rcases Nat.eq_or_lt_of_le hy1 with hEq | hLt
        · rw [← hEq]
          exact hPa
        · exact hLmin y hLt hy2
      · simp [List.findSome?, hPa, hLfind]

/-- With pairwise distinct 8-character digests, every session passes the
uniqueness test at the full length 8. -/
theorem isUniqueAt_full (sessions : List SessionInfo) (s : SessionInfo)
    (hdig : sessions.Pairwise (fun a b => a.digest ≠ b.digest))
    (hlen : ∀ t ∈ sessions, t.digest.data.length = 8) (hs : s ∈ sessions) :
    isUniqueAt sessions s 8 = true := by
  unfold isUniqueAt
  rw [List.all_eq_true]
  intro t ht
  rw [List.mem_filter] at ht
  obtain ⟨htm, htname⟩ := ht
  have hname : t.name ≠ s.name := by simpa using htname
  rw [Bool.not_eq_true']
  rw [← Bool.not_eq_true]
  rw [ List.isPrefixOf_iff_prefix]
  intro hpre
  rw [List.take_of_length_le (by rw [hlen s hs])] at hpre
  have heq : s.digest.data = t.digest.data :=
    hpre.eq_of_length (by rw [hlen s hs, hlen t htm])
  have heqd : s.digest = t.digest := by
    have := congrArg String.mk heq
    simpa using this
  have hst : s ≠ t := fun h => hname (by rw [h])
  exact (hdig.forall (fun a b h => Ne.symm h) hs htm hst) heqd

/-- Keys whose name occurs nowhere in the remaining sessions are left
untouched by the insertion fold. -/
theorem foldl_insert_not_mem (sessions : List SessionInfo) (k : String) :
    ∀ (l : List SessionInfo) (m : String → Option String),
      (∀ t ∈ l, t.name ≠ k) →
      (l.foldl (insertShortest sessions) m) k = m k := by
  intro l
  induction l with
  | nil => intro m _; rfl
  | cons t rest ih =>
    intro m hl
    rw [List.foldl_cons]
    rw [ih _ (fun u hu => hl u (List.mem_cons_of_mem t hu))]
    unfold insertShortest
    cases sessionShortest sessions t with
    | none => rfl
    | some p =>
      have hk : k ≠ t.name := fun h => (hl t (List.mem_cons_self t rest)) h.symm
      simp [hk]

/-- With pairwise distinct names, the insertion fold binds each session's
name to exactly its own search result. -/
theorem foldl_insert_mem (sessions : List SessionInfo) :
    ∀ (l : List SessionInfo) (m : String → Option String) (s : SessionInfo),
      s ∈ l → l.Pairwise (fun a b => a.name ≠ b.name) →
      (l.foldl (insertShortest sessions) m) s.name =
        match sessionShortest sessions s with
        | some p => some p
        | none => m s.name := by
  intro l
  induction l with
  | nil => intro m s hs _; cases hs
  | cons t rest ih =>
    intro m s hs hp
    rw [List.pairwise_cons] at hp
    obtain ⟨h1, h2⟩ := hp
    rw [List.foldl_cons]
    rcases List.mem_cons.mp hs with heq | hmem
    · subst heq
      rw [foldl_insert_not_mem sessions s.name rest _ (fun u hu => (h1 u hu).symm)]
      unfold insertShortest
      cases sessionShortest sessions s with
      | none => rfl
      | some p => simp
    · rw [ih _ s hmem h2]
      have hne : s.name ≠ t.name := (h1 s hmem).symm
      cases hss : sessionShortest sessions s with
      | some p => rfl
      | none =>
        show insertShortest sessions m t s.name = m s.name
        unfold insertShortest
        cases sessionShortest sessions t with
        | none => rfl
        | some p => simp [hne]

/-- With pairwise distinct names, looking a session's name up in the
returned map yields exactly the inner loop's result for that session. -/
theorem find_shortest_get (sessions : List SessionInfo)
    (hnames : sessions.Pairwise (fun a b => a.name ≠ b.name)) (s : SessionInfo)
    (hs : s ∈ sessions) :
    find_shortest_prefixes sessions s.name = sessionShortest sessions s := by
  unfold find_shortest_prefixes
  rw [foldl_insert_mem sessions sessions _ s hs hnames]
  cases sessionShortest sessions s <;> rfl

/-- C2: on a non-empty snapshot with pairwise distinct names and pairwise
distinct full 8-character digests, every session is assigned the
truncation of its own digest at the smallest length L ≥ 1 at which no
other session's digest starts with it, the assigned truncations have at
most 8 characters, and no two distinct sessions' assignments are
prefixes of one another. -/
theorem c2_shortest_unique (sessions : List SessionInfo)
    (hne : sessions ≠ [])
    (hnames : sessions.Pairwise (fun a b => a.name ≠ b.name))
    (hdig : sessions.Pairwise (fun a b => a.digest ≠ b.digest))
    (hlen : ∀ t ∈ sessions, t.digest.data.length = 8) :
    (∀ s ∈ sessions, ∃ L, 1 ≤ L ∧ L ≤ 8 ∧
        find_shortest_prefixes sessions s.name = some (prefixAt s L) ∧
        (prefixAt s L).data.length ≤ 8 ∧
        (∀ t ∈ sessions, t.name ≠ s.name →
          ¬ (s.digest.data.take L <+: t.digest.data)) ∧
        (∀ L', 1 ≤ L' → L' < L → ∃ t ∈ sessions, t.name ≠ s.name ∧
          (s.digest.data.take L' <+: t.digest.data)))
    ∧ (∀ s ∈ sessions, ∀ t ∈ sessions, s.name ≠ t.name → ∀ ps pt,
        find_shortest_prefixes sessions s.name = some ps →
        find_shortest_prefixes sessions t.name = some pt →
        ¬ (ps.data <+: pt.data)) := by
  have keyA : ∀ s ∈ sessions, ∃ L, 1 ≤ L ∧ L ≤ 8 ∧
      find_shortest_prefixes sessions s.name = some (prefixAt s L) ∧
      (prefixAt s L).data.length ≤ 8 ∧
      (∀ t ∈ sessions, t.name ≠ s.name →
        ¬ (s.digest.data.take L <+: t.digest.data)) ∧
      (∀ L', 1 ≤ L' → L' < L → ∃ t ∈ sessions, t.name ≠ s.name ∧
        (s.digest.data.take L' <+: t.digest.data)) := by
    intro s hs
    have h8 := isUniqueAt_full sessions s hdig hlen hs
    obtain ⟨L, hL1, hL2, hLP, hLmin, hfind⟩ :=
      findSome?_range'_first (isUniqueAt sessions s) (prefixAt s) 8 1
        ⟨8, by omega, by omega, h8⟩
    have hget : find_shortest_prefixes sessions s.name = some (prefixAt s L) := by
      rw [find_shortest_get sessions hnames s hs]
      unfold sessionShortest
      exact hfind
    refine ⟨L, hL1, by omega, hget, ?_, ?_, ?_⟩
    · show (s.digest.data.take L).length ≤ 8
      rw [List.length_take]
      omega
    · intro t ht htn hpre
      unfold isUniqueAt at hLP
      rw [List.all_eq_true] at hLP
      have hmt : t ∈ sessions.filter (fun u => u.name != s.name) :=
        List.mem_filter.mpr ⟨ht, by simpa using htn⟩
      have hbool := hLP t hmt
      rw [Bool.not_eq_true'] at hbool
      rw [← Bool.not_eq_true] at hbool
      rw [ List.isPrefixOf_iff_prefix] at hbool
      exact hbool hpre
    · intro L' hL'1 hL'2
      have hfalse := hLmin L' hL'1 hL'2
      unfold isUniqueAt at hfalse
      have h2 : ¬ ∀ t ∈ sessions.filter (fun u => u.name != s.name),
          (!(List.isPrefixOf (s.digest.data.take L') t.digest.data)) = true := by
        rw [← List.all_eq_true, hfalse]
        simp
      push_neg at h2
      obtain ⟨t, htf, hk⟩ := h2
      obtain ⟨htm, htname⟩ := List.mem_filter.mp htf
      refine ⟨t, htm, by simpa using htname, ?_⟩
      rw [← List.isPrefixOf_iff_prefix]
      simpa using hk
  refine ⟨keyA, ?_⟩
  intro s hs t ht hst ps pt hps hpt hpre
  obtain ⟨Ls, _, _, hgetS, _, huniq, _⟩ := keyA s hs
  obtain ⟨Lt, _, _, hgetT, _, _, _⟩ := keyA t ht
  have hpsEq : ps = prefixAt s Ls := by
    rw [hgetS] at hps
    exact (Option.some.inj hps).symm
  have hptEq : pt = prefixAt t Lt := by
    rw [hgetT] at hpt
    exact (Option.some.inj hpt).symm
  subst hpsEq
  subst hptEq
  have h1 : s.digest.data.take Ls <+: t.digest.data.take Lt := by
    simpa [prefixAt] using hpre
  have h2 : t.digest.data.take Lt <+: t.digest.data :=
    ⟨t.digest.data.drop Lt, List.take_append_drop Lt t.digest.data⟩
  exact huniq t ht (Ne.symm hst) (h1.trans h2)

/-- Witness for C2 at two concrete sessions: all hypotheses hold, the
assignments are the length-1 truncations, and they are not prefixes of one
another. -/
theorem c2_witness :
    ([w2a, w2b] : List SessionInfo) ≠ [] ∧
      List.Pairwise (fun a b : SessionInfo => a.name ≠ b.name) [w2a, w2b] ∧
      List.Pairwise (fun a b : SessionInfo => a.digest ≠ b.digest) [w2a, w2b] ∧
      (∀ t ∈ ([w2a, w2b] : List SessionInfo), t.digest.data.length = 8) ∧
      find_shortest_prefixes [w2a, w2b] w2a.name = some "0" ∧
      find_shortest_prefixes [w2a, w2b] w2b.name = some "f" ∧
      ¬ (("0" : String).data <+: ("f" : String).data) :=
  ⟨by decide, by decide, by decide, by decide, by decide, by decide,
   (c2_shortest_unique [w2a, w2b] (by decide) (by decide) (by decide)
      (by decide)).2 w2a (by decide) w2b (by decide) (by decide) "0" "f"
      (by decide) (by decide)⟩

end ZScript
